import Mathlib

/-!
Verification of the paged blob storage engine of `beaker`
(`src/beaker/lib/storage/local_blob.py`, class `LocalBlob`).

The engine emulates one contiguous byte buffer on top of a fixed set of
fixed-size key-value slots.  `LocalBlob` inherits from a `Blob` base class
(`beaker/lib/storage/blob.py`) that is not part of the sources; the pieces
taken from that file — page-size constant, address translation
(`_key_idx`, `_offset_for_idx`), the key space, the empty page and the
range preconditions — are modelled from the spec (§3, §4.1, §7) and carry
a `Modelled from the spec:` note.  The page loops of `zero`, `get_byte`,
`set_byte`, `read` and `write` are translated from the source file.

The slot store is modelled as a function from page index to stored byte
string; per spec §3 the page index → key mapping over `key_space` is a
fixed bijection, so keys are identified with page indices.  Each operation
returns, alongside its result, the list of slot-store operations (`get` /
`put`) it issued, in order, so that the I/O-trace claims can be stated.
-/

/-- Modelled from the spec (§3 BlobConfig): `page_size` comes from the
constant `BLOB_PAGE_SIZE` and `max_keys` from the key bookkeeping of
`beaker/lib/storage/blob.py`, which is not in the sources.  The spec makes
both configurable. -/
structure BlobConfig where
  pageSize : Nat
  maxKeys : Nat
deriving Repr, DecidableEq

/-- Spec §3: `capacity_bytes = page_size * max_keys`. -/
def capacityBytes (cfg : BlobConfig) : Nat := cfg.pageSize * cfg.maxKeys

/-- The slot store, indexed by page index (keys of `key_space` are
identified with page indices via the spec §3 bijection). -/
def Store : Type := Nat → List Nat

/-- One slot-store I/O operation, recorded in traces. -/
inductive SlotOp where
  | get (k : Nat)
  | put (k : Nat) (v : List Nat)
deriving Repr, DecidableEq

/-- Spec §7 error kind relevant to the claims. -/
inductive BlobError where
  | OutOfRange
deriving Repr, DecidableEq

/-- Functional update of the slot store at one page index (`App.localPut`). -/
def updStore (st : Store) (k : Nat) (v : List Nat) : Store :=
  fun j => if j = k then v else st j

/-- AVM `GetByte(s, i)`: byte of `s` at index `i` (in range whenever the
page-length invariant holds; out of range the AVM faults, modelled as 0). -/
def avmGetByte (s : List Nat) (i : Nat) : Nat := s.getD i 0

/-- AVM `SetByte(s, i, b)`: `s` with the byte at `i` replaced by `b`. -/
def avmSetByte (s : List Nat) (i : Nat) (b : Nat) : List Nat := s.set i b

/-- AVM `Substring(s, a, b)`: bytes of `s` in `[a, b)`. -/
def avmSubstring (s : List Nat) (a b : Nat) : List Nat := (s.drop a).take (b - a)

/-- AVM `Extract(s, o, l)`: `l` bytes of `s` starting at `o`. -/
def avmExtract (s : List Nat) (o l : Nat) : List Nat := (s.drop o).take l

namespace LocalBlob

/-- Modelled from the spec: `Blob._key_idx` of `beaker/lib/storage/blob.py`
(not in src); spec §4.1: `page_index(offset) = offset div page_size`. -/
def key_idx (cfg : BlobConfig) (i : Nat) : Nat := i / cfg.pageSize

/-- Modelled from the spec: `Blob._offset_for_idx` of
`beaker/lib/storage/blob.py` (not in src); spec §4.1:
`page_offset(offset) = offset mod page_size`. -/
def offset_for_idx (cfg : BlobConfig) (i : Nat) : Nat := i % cfg.pageSize

/-- Modelled from the spec (§3): `EMPTY_PAGE`, `page_size` zero bytes,
from `beaker/lib/storage/blob.py` (not in src). -/
def EMPTY_PAGE (cfg : BlobConfig) : List Nat := List.replicate cfg.pageSize 0

/-- The unrolled `Seq` of `LocalBlob.zero`: one `App.localPut` of
`EMPTY_PAGE` per key, in ascending key-space order (`self.byte_keys` is,
per spec §3, the deterministic sequence of `max_keys` keys). -/
def zeroGo (cfg : BlobConfig) : Store → Nat → Nat → Store × List SlotOp
  | st, _, 0 => (st, [])
  | st, k, n+1 =>
    let st' := updStore st k (EMPTY_PAGE cfg)
    let rest := zeroGo cfg st' (k+1) n
    (rest.1, SlotOp.put k (EMPTY_PAGE cfg) :: rest.2)

/-- `LocalBlob.zero` (local_blob.py lines 34-48). -/
def zero (cfg : BlobConfig) (st : Store) : Store × List SlotOp :=
  zeroGo cfg st 0 cfg.maxKeys

/-- `LocalBlob.get_byte` (local_blob.py lines 50-62):
`GetByte(App.localGet(acct, key(key_idx(idx))), offset_for_idx(idx))`.
The range precondition is modelled from the spec (§4.1, §4.3, §7): it is
checked before any slot-store I/O. -/
def get_byte (cfg : BlobConfig) (st : Store) (idx : Nat) :
    Except BlobError (Nat × List SlotOp) :=
  if idx < capacityBytes cfg then
    Except.ok (avmGetByte (st (key_idx cfg idx)) (offset_for_idx cfg idx),
      [SlotOp.get (key_idx cfg idx)])
  else Except.error BlobError.OutOfRange

/-- `LocalBlob.set_byte` (local_blob.py lines 64-82): read the page,
`SetByte` at the intra-page offset, put the page back.  The range
precondition is modelled from the spec (§4.1, §4.3, §7): checked before
any slot-store I/O. -/
def set_byte (cfg : BlobConfig) (st : Store) (idx b : Nat) :
    Except BlobError (Store × List SlotOp) :=
  if idx < capacityBytes cfg then
    let k := key_idx cfg idx
    let np := avmSetByte (st k) (offset_for_idx cfg idx) b
    Except.ok (updStore st k np, [SlotOp.get k, SlotOp.put k np])
  else Except.error BlobError.OutOfRange

/-- The `For` loop of `LocalBlob.read` (local_blob.py lines 103-133):
`key_idx` runs from `start_key_idx` to `stop_key_idx` inclusive; each
iteration appends `Substring(App.localGet(key(key_idx)), start, stop)`
to the buffer.  `n` is the number of remaining iterations
(`stop_key_idx + 1 - k`), matching the loop condition
`key_idx <= stop_key_idx`. -/
def readPages (cfg : BlobConfig) (st : Store) (startKey stopKey startOff stopOff : Nat) :
    Nat → Nat → List Nat × List SlotOp
  | _, 0 => ([], [])
  | k, n+1 =>
    let s := if k = startKey then startOff else 0
    let e := if k = stopKey then stopOff else cfg.pageSize
    let rest := readPages cfg st startKey stopKey startOff stopOff (k+1) n
    (avmSubstring (st k) s e ++ rest.1, SlotOp.get k :: rest.2)

/-- `LocalBlob.read` (local_blob.py lines 84-136).  The range precondition
`start <= end <= capacity_bytes` is modelled from the spec (§4.4, §7:
`OutOfRange` when `end > capacity_bytes` or `start > end`, checked before
any slot-store I/O); the loop is the source's. -/
def read (cfg : BlobConfig) (st : Store) (bstart bend : Nat) :
    Except BlobError (List Nat × List SlotOp) :=
  if bstart ≤ bend ∧ bend ≤ capacityBytes cfg then
    Except.ok (readPages cfg st (key_idx cfg bstart) (key_idx cfg bend)
      (offset_for_idx cfg bstart) (offset_for_idx cfg bend)
      (key_idx cfg bstart) (key_idx cfg bend + 1 - key_idx cfg bstart))
  else Except.error BlobError.OutOfRange

/-- The `For` loop of `LocalBlob.write` (local_blob.py lines 163-218):
`key_idx` runs from `start_key_idx` to `stop_key_idx` inclusive.  When
`stop != BLOB_PAGE_SIZE or start != 0` the new page is
`Concat(Substring(old, 0, start), Extract(buff, written, stop - start),
Substring(old, stop, BLOB_PAGE_SIZE))` — each `Substring` evaluates its
own `App.localGet`, hence two `get`s — else the new page is
`Extract(buff, written, BLOB_PAGE_SIZE)` with no `get`.  `written`
advances by `delta` each iteration. -/
def writePages (cfg : BlobConfig) (buff : List Nat) (startKey stopKey startOff stopOff : Nat) :
    Store → Nat → Nat → Nat → Store × List SlotOp
  | st, _, _, 0 => (st, [])
  | st, written, k, n+1 =>
    let s := if k = startKey then startOff else 0
    let e := if k = stopKey then stopOff else cfg.pageSize
    if e ≠ cfg.pageSize ∨ s ≠ 0 then
      let np := avmSubstring (st k) 0 s ++ avmExtract buff written (e - s) ++
                avmSubstring (st k) e cfg.pageSize
      let rest := writePages cfg buff startKey stopKey startOff stopOff
        (updStore st k np) (written + (e - s)) (k+1) n
      (rest.1, SlotOp.get k :: SlotOp.get k :: SlotOp.put k np :: rest.2)
    else
      let np := avmExtract buff written cfg.pageSize
      let rest := writePages cfg buff startKey stopKey startOff stopOff
        (updStore st k np) (written + cfg.pageSize) (k+1) n
      (rest.1, SlotOp.put k np :: rest.2)

/-- `LocalBlob.write` (local_blob.py lines 138-220).  The range
precondition `start + len(buff) <= capacity_bytes` is modelled from the
spec (§4.5, §7: `OutOfRange` when `end > capacity_bytes`, checked before
any slot-store I/O); the loop is the source's. -/
def write (cfg : BlobConfig) (st : Store) (bstart : Nat) (buff : List Nat) :
    Except BlobError (Store × List SlotOp) :=
  if bstart + buff.length ≤ capacityBytes cfg then
    Except.ok (writePages cfg buff (key_idx cfg bstart)
      (key_idx cfg (bstart + buff.length))
      (offset_for_idx cfg bstart) (offset_for_idx cfg (bstart + buff.length))
      st 0 (key_idx cfg bstart)
      (key_idx cfg (bstart + buff.length) + 1 - key_idx cfg bstart))
  else Except.error BlobError.OutOfRange

/-- The logical byte of the blob at offset `o`: the byte the engine's
addressing (spec §3 invariant) associates with `o`. -/
def blobByte (cfg : BlobConfig) (st : Store) (o : Nat) : Nat :=
  avmGetByte (st (key_idx cfg o)) (offset_for_idx cfg o)

end LocalBlob

/-- The slot-store trace of an engine call, when it succeeded. -/
def traceOf {α : Type} : Except BlobError (α × List SlotOp) → Option (List SlotOp)
  | Except.ok r => some r.2
  | Except.error _ => none

/-- The result value of an engine call, when it succeeded. -/
def valueOf {α : Type} : Except BlobError (α × List SlotOp) → Option α
  | Except.ok r => some r.1
  | Except.error _ => none

/-- The page the write loop stores for one page index: the prior bytes
before `s`, the slice of `buff` starting at `w`, and the prior bytes from
`e` on.  This is the source's partial-branch `Concat`; with `s = 0` and
`e = P` it coincides with the full-cover branch (`mergePage_full`). -/
def mergePage (pg buff : List Nat) (w s e P : Nat) : List Nat :=
  avmSubstring pg 0 s ++ avmExtract buff w (e - s) ++ avmSubstring pg e P

/-- The number of bytes of `buff` the write loop has consumed before it
processes page `j`, given the logical write start `bstart`. -/
def wOf (bstart P j : Nat) : Nat := j * P - min bstart (j * P)

/-- The slot-store operations the write loop issues while processing page
`j` (two `get`s and a `put` on the partial branch, one `put` on the
full-cover branch), with `st` the store at loop entry. -/
def pageTrace (cfg : BlobConfig) (buff : List Nat) (st : Store)
    (startKey stopKey startOff stopOff bstart : Nat) (j : Nat) : List SlotOp :=
  let s := if j = startKey then startOff else 0
  let e := if j = stopKey then stopOff else cfg.pageSize
  let np := mergePage (st j) buff (wOf bstart cfg.pageSize j) s e cfg.pageSize
  if e ≠ cfg.pageSize ∨ s ≠ 0 then
    [SlotOp.get j, SlotOp.get j, SlotOp.put j np]
  else [SlotOp.put j np]

/-- The spec §8 concrete configuration: `page_size = 4`, `max_keys = 2`. -/
def cfg42 : BlobConfig := ⟨4, 2⟩

/-- An all-zero store whose pages have length 4 (the state after `zero`
on `cfg42`). -/
def zeroed4 : Store := fun _ => List.replicate 4 0

-- Spec §8 concrete scenario sanity checks (page_size = 4, max_keys = 2).
example : valueOf ((LocalBlob.write cfg42 zeroed4 2 [1,2,3,4]).bind
    (fun r => LocalBlob.read cfg42 r.1 1 7)) = some [0,1,2,3,4,0] := by rfl

example : (LocalBlob.write cfg42 zeroed4 2 [1,2,3,4]).map
    (fun r => (r.1 0, r.1 1)) = Except.ok ([0,0,1,2], [3,4,0,0]) := by rfl

/-! ### Basic facts about the AVM byte-array primitives -/

theorem avmSubstring_length {l : List Nat} {a b : Nat} (h : b ≤ l.length) :
    (avmSubstring l a b).length = b - a := by
  simp only [avmSubstring, List.length_take, List.length_drop]
  omega

theorem avmExtract_length {l : List Nat} {o n : Nat} (h : o + n ≤ l.length) :
    (avmExtract l o n).length = n := by
  simp only [avmExtract, List.length_take, List.length_drop]
  omega

theorem avmSubstring_getD {l : List Nat} {a b i : Nat}
    (hb : b ≤ l.length) (hi : i < b - a) :
    (avmSubstring l a b).getD i 0 = l.getD (a + i) 0 := by
  have h1 : i < (avmSubstring l a b).length := by rw [avmSubstring_length hb]; exact hi
  have h2 : a + i < l.length := by omega
  rw [List.getD_eq_getElem _ _ h1, List.getD_eq_getElem _ _ h2]
  simp only [avmSubstring]
  rw [List.getElem_take, List.getElem_drop]

theorem avmExtract_getD {l : List Nat} {o n i : Nat}
    (h : o + n ≤ l.length) (hi : i < n) :
    (avmExtract l o n).getD i 0 = l.getD (o + i) 0 := by
  have h1 : i < (avmExtract l o n).length := by rw [avmExtract_length h]; exact hi
  have h2 : o + i < l.length := by omega
  rw [List.getD_eq_getElem _ _ h1, List.getD_eq_getElem _ _ h2]
  simp only [avmExtract]
  rw [List.getElem_take, List.getElem_drop]

theorem avmSubstring_zero_zero (l : List Nat) : avmSubstring l 0 0 = [] := by
  simp [avmSubstring]

theorem avmSubstring_self (l : List Nat) (e : Nat) : avmSubstring l e e = [] := by
  simp [avmSubstring]

theorem mergePage_full (pg buff : List Nat) (w P : Nat) :
    mergePage pg buff w 0 P P = avmExtract buff w P := by
  simp [mergePage, avmSubstring, avmExtract]

theorem mergePage_length {pg buff : List Nat} {w s e P : Nat}
    (hpg : pg.length = P) (hse : s ≤ e) (heP : e ≤ P)
    (hbuf : w + (e - s) ≤ buff.length) :
    (mergePage pg buff w s e P).length = P := by
  rw [mergePage, List.length_append, List.length_append,
    avmSubstring_length (by omega), avmExtract_length hbuf,
    avmSubstring_length (by omega)]
  omega

theorem mergePage_getD {pg buff : List Nat} {w s e P r : Nat}
    (hpg : pg.length = P) (hse : s ≤ e) (heP : e ≤ P)
    (hbuf : w + (e - s) ≤ buff.length) (hr : r < P) :
    (mergePage pg buff w s e P).getD r 0 =
      if s ≤ r ∧ r < e then buff.getD (w + (r - s)) 0 else pg.getD r 0 := by
  have hlen1 : (avmSubstring pg 0 s).length = s := by
    rw [avmSubstring_length (by omega)]
    omega
  have hlen2 : (avmExtract buff w (e - s)).length = e - s := avmExtract_length hbuf
  rcases Nat.lt_or_ge r s with h1 | h1
  · rw [mergePage, List.append_assoc,
      List.getD_append _ _ _ _ (by rw [hlen1]; exact h1),
      avmSubstring_getD (by omega) (by omega)]
    simp only [Nat.zero_add]
    rw [if_neg (by omega)]
  · rcases Nat.lt_or_ge r e with h2 | h2
    · rw [mergePage, List.append_assoc,
        List.getD_append_right _ _ _ _ (by rw [hlen1]; exact h1),
        List.getD_append _ _ _ _ (by rw [hlen2]; omega),
        avmExtract_getD hbuf (by omega), hlen1, if_pos ⟨h1, h2⟩]
    · rw [mergePage, List.append_assoc,
        List.getD_append_right _ _ _ _ (by rw [hlen1]; omega),
        List.getD_append_right _ _ _ _ (by rw [hlen2, hlen1]; omega),
        avmSubstring_getD (le_of_eq hpg.symm) (by rw [hlen1, hlen2]; omega)]
      rw [if_neg (by omega), hlen1, hlen2]
      congr 1
      omega

/-! ### Store update and write-counter facts -/

theorem updStore_self (st : Store) (k : Nat) (v : List Nat) :
    updStore st k v k = v := by
  simp [updStore]

theorem updStore_ne (st : Store) (k j : Nat) (v : List Nat) (h : j ≠ k) :
    updStore st k v j = st j := by
  simp [updStore, h]

theorem wOf_start (sK sO P : Nat) : wOf (sK * P + sO) P sK = 0 := by
  simp only [wOf]
  omega

theorem wOf_step {sK sO P k : Nat} (hsO : sO < P) (hk : sK ≤ k) :
    wOf (sK * P + sO) P k + (P - (if k = sK then sO else 0)) =
      wOf (sK * P + sO) P (k + 1) := by
  have e2 : (k + 1) * P = k * P + P := Nat.succ_mul k P
  rcases eq_or_ne k sK with h | h
  · subst h
    rw [if_pos rfl]
    simp only [wOf, e2]
    omega
  · rw [if_neg h]
    have hk' : sK + 1 ≤ k := by omega
    have h1 : (sK + 1) * P ≤ k * P := Nat.mul_le_mul_right P hk'
    rw [Nat.succ_mul] at h1
    simp only [wOf, e2]
    omega

/-- Bytes consumed before page `j`, for a page strictly after the start
page: everything from `bstart` up to the start of page `j`. -/
theorem wOf_of_lt {sK sO P j : Nat} (hsO : sO < P) (hj : sK < j) :
    wOf (sK * P + sO) P j = j * P - (sK * P + sO) := by
  have h1 : (sK + 1) * P ≤ j * P := Nat.mul_le_mul_right P hj
  rw [Nat.succ_mul] at h1
  simp only [wOf]
  omega

/-! ### Characterization of the write loop -/

theorem writePages_merge_step (cfg : BlobConfig) (buff : List Nat)
    (sK tK sO tO : Nat) (st : Store) (written k n : Nat)
    (h : (if k = tK then tO else cfg.pageSize) ≠ cfg.pageSize ∨
         (if k = sK then sO else 0) ≠ 0) :
    LocalBlob.writePages cfg buff sK tK sO tO st written k (n+1) =
      ((LocalBlob.writePages cfg buff sK tK sO tO
          (updStore st k (mergePage (st k) buff written (if k = sK then sO else 0)
            (if k = tK then tO else cfg.pageSize) cfg.pageSize))
          (written + ((if k = tK then tO else cfg.pageSize) - (if k = sK then sO else 0)))
          (k+1) n).1,
        SlotOp.get k :: SlotOp.get k ::
          SlotOp.put k (mergePage (st k) buff written (if k = sK then sO else 0)
            (if k = tK then tO else cfg.pageSize) cfg.pageSize) ::
          (LocalBlob.writePages cfg buff sK tK sO tO
            (updStore st k (mergePage (st k) buff written (if k = sK then sO else 0)
              (if k = tK then tO else cfg.pageSize) cfg.pageSize))
            (written + ((if k = tK then tO else cfg.pageSize) - (if k = sK then sO else 0)))
            (k+1) n).2) := by
  simp only [LocalBlob.writePages, mergePage]
  rw [if_pos h]

theorem writePages_full_step (cfg : BlobConfig) (buff : List Nat)
    (sK tK sO tO : Nat) (st : Store) (written k n : Nat)
    (h : ¬((if k = tK then tO else cfg.pageSize) ≠ cfg.pageSize ∨
         (if k = sK then sO else 0) ≠ 0)) :
    LocalBlob.writePages cfg buff sK tK sO tO st written k (n+1) =
      ((LocalBlob.writePages cfg buff sK tK sO tO
          (updStore st k (avmExtract buff written cfg.pageSize))
          (written + cfg.pageSize) (k+1) n).1,
        SlotOp.put k (avmExtract buff written cfg.pageSize) ::
          (LocalBlob.writePages cfg buff sK tK sO tO
            (updStore st k (avmExtract buff written cfg.pageSize))
            (written + cfg.pageSize) (k+1) n).2) := by
  simp only [LocalBlob.writePages]
  rw [if_neg h]

theorem pageTrace_congr {cfg : BlobConfig} {buff : List Nat} {st st' : Store}
    {sK tK sO tO bstart j : Nat} (h : st' j = st j) :
    pageTrace cfg buff st' sK tK sO tO bstart j =
      pageTrace cfg buff st sK tK sO tO bstart j := by
  simp only [pageTrace, h]

/-- Closed form of the write loop, stated pointwise: every page `j` in
`[k, stopKey]` is replaced by the merged page (prior prefix, slice of
`buff`, prior suffix — on fully covered pages just the slice of `buff`),
pages outside the range are untouched, and the trace is the concatenation
of the per-page operation lists. -/
theorem writePages_spec (cfg : BlobConfig) (buff : List Nat) (sK tK sO tO : Nat)
    (hsO : sO < cfg.pageSize) :
    ∀ n k st, sK ≤ k → k + n = tK + 1 →
      (∀ j, (LocalBlob.writePages cfg buff sK tK sO tO st
          (wOf (sK * cfg.pageSize + sO) cfg.pageSize k) k n).1 j =
        if k ≤ j ∧ j ≤ tK then
          mergePage (st j) buff (wOf (sK * cfg.pageSize + sO) cfg.pageSize j)
            (if j = sK then sO else 0) (if j = tK then tO else cfg.pageSize)
            cfg.pageSize
        else st j) ∧
      (LocalBlob.writePages cfg buff sK tK sO tO st
          (wOf (sK * cfg.pageSize + sO) cfg.pageSize k) k n).2 =
        (List.range' k n).flatMap
          (pageTrace cfg buff st sK tK sO tO (sK * cfg.pageSize + sO)) := by
  intro n
  induction n with
  | zero =>
    intro k st hk hkn
    refine ⟨?_, rfl⟩
    intro j
    rw [if_neg (show ¬(k ≤ j ∧ j ≤ tK) by omega)]
    rfl
  | succ n ih =>
    intro k st hk hkn
    have hktK : k ≤ tK := by omega
    by_cases hC : (if k = tK then tO else cfg.pageSize) ≠ cfg.pageSize ∨
        (if k = sK then sO else 0) ≠ 0
    · rw [writePages_merge_step cfg buff sK tK sO tO st _ k n hC]
      rcases eq_or_ne k tK with hk2 | hk2
      · have hn : n = 0 := by omega
        subst hn
        constructor
        · intro j
          simp only [LocalBlob.writePages]
          rcases eq_or_ne j k with hj | hj
          · rw [hj, if_pos (show k ≤ k ∧ k ≤ tK by omega), updStore_self]
          · rw [if_neg (show ¬(k ≤ j ∧ j ≤ tK) by omega),
              updStore_ne st k j _ hj]
        · simp only [LocalBlob.writePages]
          rw [List.range'_one, List.flatMap_cons, List.flatMap_nil,
            List.append_nil]
          simp only [pageTrace]
          rw [if_pos hC]
      · have hklt : k < tK := by omega
        have hw : wOf (sK * cfg.pageSize + sO) cfg.pageSize k +
            ((if k = tK then tO else cfg.pageSize) - (if k = sK then sO else 0)) =
            wOf (sK * cfg.pageSize + sO) cfg.pageSize (k + 1) := by
          rw [if_neg hk2]
          exact wOf_step hsO hk
        rw [hw]
        obtain ⟨ih1, ih2⟩ := ih (k+1)
          (updStore st k (mergePage (st k) buff
            (wOf (sK * cfg.pageSize + sO) cfg.pageSize k)
            (if k = sK then sO else 0) (if k = tK then tO else cfg.pageSize)
            cfg.pageSize))
          (by omega) (by omega)
        constructor
        · intro j
          have h1 := ih1 j
          dsimp only at h1 ⊢
          rw [h1]
          rcases eq_or_ne j k with hj | hj
          · rw [hj, if_neg (show ¬(k + 1 ≤ k ∧ k ≤ tK) by omega),
              if_pos (show k ≤ k ∧ k ≤ tK by omega), updStore_self]
          · rw [updStore_ne st k j _ hj]
            by_cases hj2 : k + 1 ≤ j ∧ j ≤ tK
            · rw [if_pos hj2, if_pos (show k ≤ j ∧ j ≤ tK by omega)]
            · rw [if_neg hj2, if_neg (show ¬(k ≤ j ∧ j ≤ tK) by omega)]
        · dsimp only
          rw [ih2, List.range'_succ, List.flatMap_cons]
          have hcong : (List.range' (k+1) n).flatMap
              (pageTrace cfg buff
                (updStore st k (mergePage (st k) buff
                  (wOf (sK * cfg.pageSize + sO) cfg.pageSize k)
                  (if k = sK then sO else 0) (if k = tK then tO else cfg.pageSize)
                  cfg.pageSize))
                sK tK sO tO (sK * cfg.pageSize + sO)) =
              (List.range' (k+1) n).flatMap
                (pageTrace cfg buff st sK tK sO tO (sK * cfg.pageSize + sO)) := by
            refine List.flatMap_congr ?_
            intro j hj
            obtain ⟨i, hi, rfl⟩ := List.mem_range'.mp hj
            exact pageTrace_congr (updStore_ne st k _ _ (by omega))
          rw [hcong]
          have hpt : pageTrace cfg buff st sK tK sO tO (sK * cfg.pageSize + sO) k =
              [SlotOp.get k, SlotOp.get k,
                SlotOp.put k (mergePage (st k) buff
                  (wOf (sK * cfg.pageSize + sO) cfg.pageSize k)
                  (if k = sK then sO else 0) (if k = tK then tO else cfg.pageSize)
                  cfg.pageSize)] := by
            simp only [pageTrace]
            rw [if_pos hC]
          rw [hpt]
          rfl
    · rw [writePages_full_step cfg buff sK tK sO tO st _ k n hC]
      have hC' := hC
      push_neg at hC'
      obtain ⟨he, hs⟩ := hC'
      have hw : wOf (sK * cfg.pageSize + sO) cfg.pageSize k + cfg.pageSize =
          wOf (sK * cfg.pageSize + sO) cfg.pageSize (k + 1) := by
        have h0 := wOf_step hsO hk
        rw [hs, Nat.sub_zero] at h0
        exact h0
      rw [hw]
      obtain ⟨ih1, ih2⟩ := ih (k+1)
        (updStore st k (avmExtract buff
          (wOf (sK * cfg.pageSize + sO) cfg.pageSize k) cfg.pageSize))
        (by omega) (by omega)
      constructor
      · intro j
        have h1 := ih1 j
        dsimp only at h1 ⊢
        rw [h1]
        rcases eq_or_ne j k with hj | hj
        · rw [hj, if_neg (show ¬(k + 1 ≤ k ∧ k ≤ tK) by omega),
            if_pos (show k ≤ k ∧ k ≤ tK by omega), updStore_self, hs, he,
            mergePage_full]
        · rw [updStore_ne st k j _ hj]
          by_cases hj2 : k + 1 ≤ j ∧ j ≤ tK
          · rw [if_pos hj2, if_pos (show k ≤ j ∧ j ≤ tK by omega)]
          · rw [if_neg hj2, if_neg (show ¬(k ≤ j ∧ j ≤ tK) by omega)]
      · dsimp only
        rw [ih2, List.range'_succ, List.flatMap_cons]
        have hcong : (List.range' (k+1) n).flatMap
            (pageTrace cfg buff
              (updStore st k (avmExtract buff
                (wOf (sK * cfg.pageSize + sO) cfg.pageSize k) cfg.pageSize))
              sK tK sO tO (sK * cfg.pageSize + sO)) =
            (List.range' (k+1) n).flatMap
              (pageTrace cfg buff st sK tK sO tO (sK * cfg.pageSize + sO)) := by
          refine List.flatMap_congr ?_
          intro j hj
          obtain ⟨i, hi, rfl⟩ := List.mem_range'.mp hj
          exact pageTrace_congr (updStore_ne st k _ _ (by omega))
        rw [hcong]
        have hpt : pageTrace cfg buff st sK tK sO tO (sK * cfg.pageSize + sO) k =
            [SlotOp.put k (avmExtract buff
              (wOf (sK * cfg.pageSize + sO) cfg.pageSize k) cfg.pageSize)] := by
          simp only [pageTrace]
          rw [if_neg hC, hs, he, mergePage_full]
        rw [hpt]
        rfl

/-! ### Characterization of the read loop -/

/-- A substring of page `k` is the list of logical blob bytes at the
corresponding logical offsets. -/
theorem avmSubstring_blobByte (cfg : BlobConfig) (st : Store) (k s e : Nat)
    (hP : 0 < cfg.pageSize) (heP : e ≤ cfg.pageSize) (hePg : e ≤ (st k).length) :
    avmSubstring (st k) s e =
      (List.range' (k * cfg.pageSize + s) (e - s)).map (LocalBlob.blobByte cfg st) := by
  apply List.ext_getElem
  · rw [avmSubstring_length hePg, List.length_map, List.length_range']
  · intro i h1 h2
    have hi : i < e - s := by
      rw [avmSubstring_length hePg] at h1
      exact h1
    have hsi : s + i < e := by omega
    rw [List.getElem_map, List.getElem_range']
    show (avmSubstring (st k) s e)[i] = LocalBlob.blobByte cfg st (k * cfg.pageSize + s + 1 * i)
    have harg : k * cfg.pageSize + s + 1 * i = (s + i) + cfg.pageSize * k := by ring
    rw [harg]
    have hdiv : ((s + i) + cfg.pageSize * k) / cfg.pageSize = k := by
      rw [Nat.add_mul_div_left _ _ hP, Nat.div_eq_of_lt (by omega)]
      omega
    have hmod : ((s + i) + cfg.pageSize * k) % cfg.pageSize = s + i := by
      rw [Nat.add_mul_mod_self_left, Nat.mod_eq_of_lt (by omega)]
    show _ = avmGetByte (st (((s + i) + cfg.pageSize * k) / cfg.pageSize))
      (((s + i) + cfg.pageSize * k) % cfg.pageSize)
    rw [hdiv, hmod]
    show _ = (st k).getD (s + i) 0
    rw [List.getD_eq_getElem _ _ (by omega)]
    simp only [avmSubstring]
    rw [List.getElem_take, List.getElem_drop]

/-- Closed form of the read loop: the buffer built from page `k` on is the
list of logical blob bytes from `max bstart (k * page_size)` up to `bend`,
and one `get` is issued per page index from `k` to `stopKey` inclusive. -/
theorem readPages_spec (cfg : BlobConfig) (st : Store) (sK tK sO tO : Nat)
    (hP : 0 < cfg.pageSize) (hsO : sO < cfg.pageSize) (htO : tO < cfg.pageSize) :
    ∀ n k, sK ≤ k → k + n = tK + 1 →
      (∀ j, k ≤ j → j ≤ tK → (if j = tK then tO else cfg.pageSize) ≤ (st j).length) →
      (LocalBlob.readPages cfg st sK tK sO tO k n).1 =
        (List.range' (max (sK * cfg.pageSize + sO) (k * cfg.pageSize))
            ((tK * cfg.pageSize + tO) -
              max (sK * cfg.pageSize + sO) (k * cfg.pageSize))).map
          (LocalBlob.blobByte cfg st) ∧
      (LocalBlob.readPages cfg st sK tK sO tO k n).2 =
        (List.range' k n).map SlotOp.get := by
  intro n
  induction n with
  | zero =>
    intro k hk hkn hlen
    have hk' : k = tK + 1 := by omega
    subst hk'
    have e1 : (tK + 1) * cfg.pageSize = tK * cfg.pageSize + cfg.pageSize :=
      Nat.succ_mul _ _
    constructor
    · have hz : (tK * cfg.pageSize + tO) -
          max (sK * cfg.pageSize + sO) ((tK + 1) * cfg.pageSize) = 0 := by
        omega
      rw [hz, List.range'_zero, List.map_nil]
      rfl
    · rfl
  | succ n ih =>
    intro k hk hkn hlen
    have hktK : k ≤ tK := by omega
    have e1 : (k + 1) * cfg.pageSize = k * cfg.pageSize + cfg.pageSize :=
      Nat.succ_mul _ _
    have hm1 : k * cfg.pageSize ≤ tK * cfg.pageSize :=
      Nat.mul_le_mul_right _ hktK
    have hchunk : avmSubstring (st k) (if k = sK then sO else 0)
        (if k = tK then tO else cfg.pageSize) =
        (List.range' (k * cfg.pageSize + (if k = sK then sO else 0))
          ((if k = tK then tO else cfg.pageSize) - (if k = sK then sO else 0))).map
          (LocalBlob.blobByte cfg st) := by
      refine avmSubstring_blobByte cfg st k _ _ hP ?_ ?_
      · rcases eq_or_ne k tK with h | h
        · rw [if_pos h]; omega
        · rw [if_neg h]
      · exact hlen k (le_refl k) hktK
    obtain ⟨ih1, ih2⟩ := ih (k+1) (by omega) (by omega)
      (fun j hj1 hj2 => hlen j (by omega) hj2)
    simp only [LocalBlob.readPages]
    constructor
    · show avmSubstring (st k) _ _ ++
        (LocalBlob.readPages cfg st sK tK sO tO (k+1) n).1 = _
      rw [hchunk, ih1, ← List.map_append]
      congr 1
      rcases eq_or_ne k tK with hk2 | hk2
      · have hn : n = 0 := by omega
        subst hn
        subst hk2
        have hz : (k * cfg.pageSize + tO) -
            max (sK * cfg.pageSize + sO) ((k + 1) * cfg.pageSize) = 0 := by
          omega
        rw [hz, List.range'_zero, List.append_nil, if_pos rfl]
        rcases eq_or_ne k sK with hk3 | hk3
        · subst hk3
          have hA : k * cfg.pageSize + sO =
              max (k * cfg.pageSize + sO) (k * cfg.pageSize) := by omega
          rw [if_pos rfl, ← hA]
          congr 1
          omega
        · have hsk : sK + 1 ≤ k := by omega
          have e0 : (sK + 1) * cfg.pageSize = sK * cfg.pageSize + cfg.pageSize :=
            Nat.succ_mul _ _
          have hm3 : (sK + 1) * cfg.pageSize ≤ k * cfg.pageSize :=
            Nat.mul_le_mul_right _ hsk
          rw [if_neg hk3]
          have hA : k * cfg.pageSize + 0 =
              max (sK * cfg.pageSize + sO) (k * cfg.pageSize) := by omega
          rw [← hA]
          congr 1
          omega
      · have hklt : k + 1 ≤ tK := by omega
        have hm2 : (k + 1) * cfg.pageSize ≤ tK * cfg.pageSize :=
          Nat.mul_le_mul_right _ hklt
        rw [if_neg hk2]
        rcases eq_or_ne k sK with hk3 | hk3
        · subst hk3
          rw [if_pos rfl]
          have hA' : max (k * cfg.pageSize + sO) ((k + 1) * cfg.pageSize) =
              (k * cfg.pageSize + sO) + 1 * (cfg.pageSize - sO) := by omega
          rw [hA', List.range'_append]
          have hA : k * cfg.pageSize + sO =
              max (k * cfg.pageSize + sO) (k * cfg.pageSize) := by omega
          rw [← hA]
          congr 1
          omega
        · have hsk : sK + 1 ≤ k := by omega
          have e0 : (sK + 1) * cfg.pageSize = sK * cfg.pageSize + cfg.pageSize :=
            Nat.succ_mul _ _
          have hm3 : (sK + 1) * cfg.pageSize ≤ k * cfg.pageSize :=
            Nat.mul_le_mul_right _ hsk
          rw [if_neg hk3]
          have hA' : max (sK * cfg.pageSize + sO) ((k + 1) * cfg.pageSize) =
              (k * cfg.pageSize + 0) + 1 * (cfg.pageSize - 0) := by omega
          rw [hA', List.range'_append]
          have hA : k * cfg.pageSize + 0 =
              max (sK * cfg.pageSize + sO) (k * cfg.pageSize) := by omega
          rw [← hA]
          congr 1
          omega
    · show SlotOp.get k :: (LocalBlob.readPages cfg st sK tK sO tO (k+1) n).2 = _
      rw [ih2, List.range'_succ, List.map_cons]

/-! ### Top-level characterizations of write and read -/

/-- `write` succeeds exactly under the spec precondition and its effect and
trace are given by the loop's closed form, with the page bounds and the
consumed-bytes counter expressed through the logical write range. -/
theorem write_spec (cfg : BlobConfig) (st : Store) (bstart : Nat) (buff : List Nat)
    (hP : 0 < cfg.pageSize) (hcap : bstart + buff.length ≤ capacityBytes cfg) :
    ∃ st' tr, LocalBlob.write cfg st bstart buff = Except.ok (st', tr) ∧
      (∀ j, st' j =
        if bstart / cfg.pageSize ≤ j ∧ j ≤ (bstart + buff.length) / cfg.pageSize then
          mergePage (st j) buff (wOf bstart cfg.pageSize j)
            (if j = bstart / cfg.pageSize then bstart % cfg.pageSize else 0)
            (if j = (bstart + buff.length) / cfg.pageSize then
              (bstart + buff.length) % cfg.pageSize else cfg.pageSize)
            cfg.pageSize
        else st j) ∧
      tr = (List.range' (bstart / cfg.pageSize)
          ((bstart + buff.length) / cfg.pageSize + 1 - bstart / cfg.pageSize)).flatMap
        (pageTrace cfg buff st (bstart / cfg.pageSize)
          ((bstart + buff.length) / cfg.pageSize)
          (bstart % cfg.pageSize) ((bstart + buff.length) % cfg.pageSize) bstart) := by
  have hbs : bstart / cfg.pageSize * cfg.pageSize + bstart % cfg.pageSize = bstart := by
    rw [Nat.mul_comm]
    exact Nat.div_add_mod bstart cfg.pageSize
  have hsK : bstart / cfg.pageSize ≤ (bstart + buff.length) / cfg.pageSize :=
    Nat.div_le_div_right (Nat.le_add_right _ _)
  obtain ⟨hs, ht⟩ := writePages_spec cfg buff (bstart / cfg.pageSize)
    ((bstart + buff.length) / cfg.pageSize)
    (bstart % cfg.pageSize) ((bstart + buff.length) % cfg.pageSize)
    (Nat.mod_lt _ hP)
    ((bstart + buff.length) / cfg.pageSize + 1 - bstart / cfg.pageSize)
    (bstart / cfg.pageSize) st le_rfl (by omega)
  rw [wOf_start] at hs ht
  rw [hbs] at hs ht
  simp only [LocalBlob.write, LocalBlob.key_idx, LocalBlob.offset_for_idx]
  rw [if_pos hcap]
  exact ⟨_, _, rfl, hs, ht⟩

/-- `read` succeeds exactly under the spec precondition; it returns the
logical bytes of `[bstart, bend)` and issues one `get` per page index from
`page_index(bstart)` to `page_index(bend)` inclusive. -/
theorem read_spec (cfg : BlobConfig) (st : Store) (bstart bend : Nat)
    (hP : 0 < cfg.pageSize) (hse : bstart ≤ bend) (hcap : bend ≤ capacityBytes cfg)
    (hlen : ∀ j, bstart / cfg.pageSize ≤ j → j ≤ bend / cfg.pageSize →
      (if j = bend / cfg.pageSize then bend % cfg.pageSize else cfg.pageSize) ≤
        (st j).length) :
    LocalBlob.read cfg st bstart bend =
      Except.ok ((List.range' bstart (bend - bstart)).map (LocalBlob.blobByte cfg st),
        (List.range' (bstart / cfg.pageSize)
          (bend / cfg.pageSize + 1 - bstart / cfg.pageSize)).map SlotOp.get) := by
  have hbs : bstart / cfg.pageSize * cfg.pageSize + bstart % cfg.pageSize = bstart := by
    rw [Nat.mul_comm]
    exact Nat.div_add_mod bstart cfg.pageSize
  have hbe : bend / cfg.pageSize * cfg.pageSize + bend % cfg.pageSize = bend := by
    rw [Nat.mul_comm]
    exact Nat.div_add_mod bend cfg.pageSize
  have hsK : bstart / cfg.pageSize ≤ bend / cfg.pageSize :=
    Nat.div_le_div_right hse
  obtain ⟨h1, h2⟩ := readPages_spec cfg st (bstart / cfg.pageSize)
    (bend / cfg.pageSize) (bstart % cfg.pageSize) (bend % cfg.pageSize)
    hP (Nat.mod_lt _ hP) (Nat.mod_lt _ hP)
    (bend / cfg.pageSize + 1 - bstart / cfg.pageSize)
    (bstart / cfg.pageSize) le_rfl (by omega) hlen
  simp only [LocalBlob.read, LocalBlob.key_idx, LocalBlob.offset_for_idx]
  rw [if_pos (And.intro hse hcap)]
  refine congrArg Except.ok ?_
  rw [Prod.ext_iff]
  refine ⟨?_, ?_⟩
  · dsimp only
    rw [h1]
    have hmax : max (bstart / cfg.pageSize * cfg.pageSize + bstart % cfg.pageSize)
        (bstart / cfg.pageSize * cfg.pageSize) =
        bstart / cfg.pageSize * cfg.pageSize + bstart % cfg.pageSize := by
      omega
    rw [hmax, hbs, hbe]
  · dsimp only
    exact h2

/-! ### Intra-page bound arithmetic for the write range -/

theorem wOf_zero (bstart P : Nat) : wOf bstart P (bstart / P) = 0 := by
  have h := Nat.div_mul_le_self bstart P
  simp only [wOf]
  rw [Nat.min_eq_right h]
  omega

theorem wOf_eq (bstart P j : Nat) (h : bstart ≤ j * P) :
    wOf bstart P j = j * P - bstart := by
  simp only [wOf]
  rw [Nat.min_eq_left h]

/-- For a page `j` inside the write's page range, the intra-page bounds are
ordered, bounded by the page size, and the slice of `buff` they select
stays inside `buff`. -/
theorem write_offsets (P bstart L j : Nat) (hP : 0 < P)
    (hj1 : bstart / P ≤ j) (hj2 : j ≤ (bstart + L) / P) :
    (if j = bstart / P then bstart % P else 0) ≤
      (if j = (bstart + L) / P then (bstart + L) % P else P) ∧
    (if j = (bstart + L) / P then (bstart + L) % P else P) ≤ P ∧
    wOf bstart P j +
      ((if j = (bstart + L) / P then (bstart + L) % P else P) -
       (if j = bstart / P then bstart % P else 0)) ≤ L := by
  have hbs : bstart / P * P + bstart % P = bstart := by
    rw [Nat.mul_comm]; exact Nat.div_add_mod bstart P
  have hbe : (bstart + L) / P * P + (bstart + L) % P = bstart + L := by
    rw [Nat.mul_comm]; exact Nat.div_add_mod (bstart + L) P
  have hsO : bstart % P < P := Nat.mod_lt _ hP
  have htO : (bstart + L) % P < P := Nat.mod_lt _ hP
  rcases eq_or_ne j (bstart / P) with hjs | hjs <;>
    rcases eq_or_ne j ((bstart + L) / P) with hjt | hjt
  · have hw : wOf bstart P j = 0 := by rw [hjs, wOf_zero]
    have hjs' : j * P = bstart / P * P := by rw [hjs]
    have hjt' : j * P = (bstart + L) / P * P := by rw [hjt]
    rw [if_pos hjs, if_pos hjt, hw]
    omega
  · have hw : wOf bstart P j = 0 := by rw [hjs, wOf_zero]
    have hjs' : j * P = bstart / P * P := by rw [hjs]
    have h4 : (j + 1) * P ≤ (bstart + L) / P * P :=
      Nat.mul_le_mul_right P (by omega)
    rw [Nat.succ_mul] at h4
    rw [if_pos hjs, if_neg hjt, hw]
    omega
  · have h3 : (bstart / P + 1) * P ≤ j * P :=
      Nat.mul_le_mul_right P (by omega)
    rw [Nat.succ_mul] at h3
    have hble : bstart ≤ j * P := by omega
    have hw : wOf bstart P j = j * P - bstart := wOf_eq _ _ _ hble
    have hjt' : j * P = (bstart + L) / P * P := by rw [hjt]
    rw [if_neg hjs, if_pos hjt, hw]
    omega
  · have h3 : (bstart / P + 1) * P ≤ j * P :=
      Nat.mul_le_mul_right P (by omega)
    rw [Nat.succ_mul] at h3
    have hble : bstart ≤ j * P := by omega
    have hw : wOf bstart P j = j * P - bstart := wOf_eq _ _ _ hble
    have h4 : (j + 1) * P ≤ (bstart + L) / P * P :=
      Nat.mul_le_mul_right P (by omega)
    rw [Nat.succ_mul] at h4
    rw [if_neg hjs, if_neg hjt, hw]
    omega

/-- A logical offset `o` lies in the write range iff its intra-page offset
lies between the page's intra-page bounds, and in that case the write's
consumed-bytes counter plus the intra-page position equals `o - bstart`. -/
theorem write_cond_idx (P bstart L o : Nat) (hP : 0 < P)
    (hj1 : bstart / P ≤ o / P) (hj2 : o / P ≤ (bstart + L) / P) :
    (((if o / P = bstart / P then bstart % P else 0) ≤ o % P ∧
      o % P < (if o / P = (bstart + L) / P then (bstart + L) % P else P)) ↔
      (bstart ≤ o ∧ o < bstart + L)) ∧
    ((if o / P = bstart / P then bstart % P else 0) ≤ o % P →
      wOf bstart P (o / P) +
        (o % P - (if o / P = bstart / P then bstart % P else 0)) =
        o - bstart) := by
  have hbs : bstart / P * P + bstart % P = bstart := by
    rw [Nat.mul_comm]; exact Nat.div_add_mod bstart P
  have hbe : (bstart + L) / P * P + (bstart + L) % P = bstart + L := by
    rw [Nat.mul_comm]; exact Nat.div_add_mod (bstart + L) P
  have ho : o / P * P + o % P = o := by
    rw [Nat.mul_comm]; exact Nat.div_add_mod o P
  have hsO : bstart % P < P := Nat.mod_lt _ hP
  have htO : (bstart + L) % P < P := Nat.mod_lt _ hP
  have hr : o % P < P := Nat.mod_lt _ hP
  rcases eq_or_ne (o / P) (bstart / P) with hjs | hjs <;>
    rcases eq_or_ne (o / P) ((bstart + L) / P) with hjt | hjt
  · have hw : wOf bstart P (o / P) = 0 := by rw [hjs, wOf_zero]
    have hjs' : o / P * P = bstart / P * P := by rw [hjs]
    have hjt' : o / P * P = (bstart + L) / P * P := by rw [hjt]
    rw [if_pos hjs, if_pos hjt, hw]
    omega
  · have hw : wOf bstart P (o / P) = 0 := by rw [hjs, wOf_zero]
    have hjs' : o / P * P = bstart / P * P := by rw [hjs]
    have h4 : (o / P + 1) * P ≤ (bstart + L) / P * P :=
      Nat.mul_le_mul_right P (by omega)
    rw [Nat.succ_mul] at h4
    rw [if_pos hjs, if_neg hjt, hw]
    omega
  · have h3 : (bstart / P + 1) * P ≤ o / P * P :=
      Nat.mul_le_mul_right P (by omega)
    rw [Nat.succ_mul] at h3
    have hble : bstart ≤ o / P * P := by omega
    have hw : wOf bstart P (o / P) = o / P * P - bstart := wOf_eq _ _ _ hble
    have hjt' : o / P * P = (bstart + L) / P * P := by rw [hjt]
    rw [if_neg hjs, if_pos hjt, hw]
    omega
  · have h3 : (bstart / P + 1) * P ≤ o / P * P :=
      Nat.mul_le_mul_right P (by omega)
    rw [Nat.succ_mul] at h3
    have hble : bstart ≤ o / P * P := by omega
    have hw : wOf bstart P (o / P) = o / P * P - bstart := wOf_eq _ _ _ hble
    have h4 : (o / P + 1) * P ≤ (bstart + L) / P * P :=
      Nat.mul_le_mul_right P (by omega)
    rw [Nat.succ_mul] at h4
    rw [if_neg hjs, if_neg hjt, hw]
    omega

/-- Byte-level effect of `write`: inside `[bstart, bstart + len)` the blob
holds the bytes of `buff`, outside it is unchanged; and every page of the
write's page range keeps at least the length the read loop will slice. -/
theorem write_blobByte (cfg : BlobConfig) (st : Store) (bstart : Nat) (buff : List Nat)
    (hP : 0 < cfg.pageSize) (hcap : bstart + buff.length ≤ capacityBytes cfg)
    (hlen : ∀ j, j < cfg.maxKeys → (st j).length = cfg.pageSize) :
    ∃ st' tr, LocalBlob.write cfg st bstart buff = Except.ok (st', tr) ∧
      (∀ o, o < capacityBytes cfg →
        LocalBlob.blobByte cfg st' o =
          if bstart ≤ o ∧ o < bstart + buff.length then buff.getD (o - bstart) 0
          else LocalBlob.blobByte cfg st o) ∧
      (∀ j, bstart / cfg.pageSize ≤ j → j ≤ (bstart + buff.length) / cfg.pageSize →
        (if j = (bstart + buff.length) / cfg.pageSize then
          (bstart + buff.length) % cfg.pageSize else cfg.pageSize) ≤ (st' j).length) := by
  obtain ⟨st', tr, hw, hstore, htr⟩ := write_spec cfg st bstart buff hP hcap
  have hcap2 : bstart + buff.length ≤ cfg.maxKeys * cfg.pageSize := by
    have h := hcap
    simp only [capacityBytes] at h
    rw [Nat.mul_comm] at h
    exact h
  have hbe : (bstart + buff.length) / cfg.pageSize * cfg.pageSize +
      (bstart + buff.length) % cfg.pageSize = bstart + buff.length := by
    rw [Nat.mul_comm]; exact Nat.div_add_mod _ _
  refine ⟨st', tr, hw, ?_, ?_⟩
  · intro o ho
    have ho2 : o < cfg.maxKeys * cfg.pageSize := by
      simp only [capacityBytes] at ho
      rw [Nat.mul_comm] at ho
      exact ho
    have hjm : o / cfg.pageSize < cfg.maxKeys :=
      (Nat.div_lt_iff_lt_mul hP).mpr ho2
    have hpg : (st (o / cfg.pageSize)).length = cfg.pageSize := hlen _ hjm
    simp only [LocalBlob.blobByte, LocalBlob.key_idx, LocalBlob.offset_for_idx,
      avmGetByte]
    rw [hstore (o / cfg.pageSize)]
    by_cases hj : bstart / cfg.pageSize ≤ o / cfg.pageSize ∧
        o / cfg.pageSize ≤ (bstart + buff.length) / cfg.pageSize
    · rw [if_pos hj]
      obtain ⟨hse', heP', hbuf'⟩ :=
        write_offsets cfg.pageSize bstart buff.length (o / cfg.pageSize) hP hj.1 hj.2
      obtain ⟨hiff, hidx⟩ :=
        write_cond_idx cfg.pageSize bstart buff.length o hP hj.1 hj.2
      rw [mergePage_getD hpg hse' heP' hbuf' (Nat.mod_lt _ hP)]
      by_cases hcnd : bstart ≤ o ∧ o < bstart + buff.length
      · rw [if_pos (hiff.mpr hcnd), if_pos hcnd, hidx (hiff.mpr hcnd).1]
      · rw [if_neg (fun hc => hcnd (hiff.mp hc)), if_neg hcnd]
    · rw [if_neg hj]
      have hcon : ¬(bstart ≤ o ∧ o < bstart + buff.length) := by
        intro hc
        exact hj ⟨Nat.div_le_div_right hc.1, Nat.div_le_div_right (le_of_lt hc.2)⟩
      rw [if_neg hcon]
  · intro j hj1 hj2
    obtain ⟨hse', heP', hbuf'⟩ :=
      write_offsets cfg.pageSize bstart buff.length j hP hj1 hj2
    rw [hstore j, if_pos (And.intro hj1 hj2)]
    rcases eq_or_ne j ((bstart + buff.length) / cfg.pageSize) with hjt | hjt
    · rw [if_pos hjt] at hse' heP' hbuf' ⊢
      rcases Nat.eq_zero_or_pos ((bstart + buff.length) % cfg.pageSize) with h0 | h0
      · rw [h0]
        exact Nat.zero_le _
      · have hjt' : j * cfg.pageSize =
            (bstart + buff.length) / cfg.pageSize * cfg.pageSize := by rw [hjt]
        have hjm : j < cfg.maxKeys := by
          by_contra hc
          push_neg at hc
          have h6 : cfg.maxKeys * cfg.pageSize ≤ j * cfg.pageSize :=
            Nat.mul_le_mul_right _ hc
          omega
        rw [mergePage_length (hlen j hjm) hse' heP' hbuf']
        have : (bstart + buff.length) % cfg.pageSize < cfg.pageSize :=
          Nat.mod_lt _ hP
        omega
    · rw [if_neg hjt] at hse' heP' hbuf' ⊢
      have h4 : (j + 1) * cfg.pageSize ≤
          (bstart + buff.length) / cfg.pageSize * cfg.pageSize :=
        Nat.mul_le_mul_right _ (by omega)
      rw [Nat.succ_mul] at h4
      have hjm : j < cfg.maxKeys := by
        by_contra hc
        push_neg at hc
        have h6 : cfg.maxKeys * cfg.pageSize ≤ j * cfg.pageSize :=
          Nat.mul_le_mul_right _ hc
        omega
      rw [mergePage_length (hlen j hjm) hse' heP' hbuf']

theorem map_getD_range' (l : List Nat) (b : Nat) :
    (List.range' b l.length).map (fun o => l.getD (o - b) 0) = l := by
  apply List.ext_getElem
  · rw [List.length_map, List.length_range']
  · intro i h1 h2
    rw [List.getElem_map, List.getElem_range']
    show l.getD (b + 1 * i - b) 0 = l[i]
    have hi : b + 1 * i - b = i := by omega
    rw [hi, List.getD_eq_getElem _ _ h2]

/-! ### Claim theorems -/

/-- C1: round-trip of range write and range read — for every logical
offset `bstart` and byte sequence `buff` with
`bstart + len(buff) <= capacity_bytes` (and a slot store satisfying the
spec §3 page-length invariant), `write(bstart, buff)` succeeds and
`read(bstart, bstart + len(buff))` on the resulting store returns exactly
`buff`. -/
theorem C1_write_read_roundtrip (cfg : BlobConfig) (st : Store) (bstart : Nat)
    (buff : List Nat) (hP : 0 < cfg.pageSize)
    (hcap : bstart + buff.length ≤ capacityBytes cfg)
    (hlen : ∀ j, j < cfg.maxKeys → (st j).length = cfg.pageSize) :
    ∃ st' tr, LocalBlob.write cfg st bstart buff = Except.ok (st', tr) ∧
      valueOf (LocalBlob.read cfg st' bstart (bstart + buff.length)) = some buff := by
  obtain ⟨st', tr, hw, hbytes, hlen'⟩ := write_blobByte cfg st bstart buff hP hcap hlen
  refine ⟨st', tr, hw, ?_⟩
  rw [read_spec cfg st' bstart (bstart + buff.length) hP (Nat.le_add_right _ _)
    hcap hlen']
  simp only [valueOf]
  congr 1
  have hL : bstart + buff.length - bstart = buff.length := by omega
  rw [hL]
  have hmapc : (List.range' bstart buff.length).map (LocalBlob.blobByte cfg st') =
      (List.range' bstart buff.length).map (fun o => buff.getD (o - bstart) 0) := by
    apply List.map_congr_left
    intro o hmem
    obtain ⟨i, hi, rfl⟩ := List.mem_range'.mp hmem
    rw [hbytes _ (by omega)]
    rw [if_pos (And.intro (by omega) (by omega))]
  rw [hmapc, map_getD_range']

/-- Witness for C1 on the spec §8 configuration: `write(2, [1,2,3,4])` on
a zeroed 2-page, 4-byte-page blob, then `read(2, 6)` returns
`[1,2,3,4]`. -/
theorem C1_witness :
    0 < cfg42.pageSize ∧ 2 + [1,2,3,4].length ≤ capacityBytes cfg42 ∧
      (∀ j, j < cfg42.maxKeys → (zeroed4 j).length = cfg42.pageSize) ∧
      ∃ st' tr, LocalBlob.write cfg42 zeroed4 2 [1,2,3,4] = Except.ok (st', tr) ∧
        valueOf (LocalBlob.read cfg42 st' 2 (2 + [1,2,3,4].length)) =
          some [1,2,3,4] :=
  ⟨by decide, by decide, fun j _ => rfl,
    C1_write_read_roundtrip cfg42 zeroed4 2 [1,2,3,4] (by decide) (by decide)
      (fun j _ => rfl)⟩

/-- C2: the partial-page merge preserves untouched bytes — for every
`write(bstart, buff)` within capacity, every logical byte outside
`[bstart, bstart + len(buff))` (including bytes on the boundary pages the
write touches) has the same value after the write as before it. -/
theorem C2_write_frame (cfg : BlobConfig) (st : Store) (bstart : Nat)
    (buff : List Nat) (o : Nat) (hP : 0 < cfg.pageSize)
    (hcap : bstart + buff.length ≤ capacityBytes cfg)
    (hlen : ∀ j, j < cfg.maxKeys → (st j).length = cfg.pageSize)
    (ho : o < capacityBytes cfg)
    (hout : o < bstart ∨ bstart + buff.length ≤ o) :
    ∃ st' tr, LocalBlob.write cfg st bstart buff = Except.ok (st', tr) ∧
      LocalBlob.blobByte cfg st' o = LocalBlob.blobByte cfg st o := by
  obtain ⟨st', tr, hw, hbytes, _⟩ := write_blobByte cfg st bstart buff hP hcap hlen
  refine ⟨st', tr, hw, ?_⟩
  rw [hbytes o ho, if_neg (by omega)]

/-- Witness for C2 on the spec §8 boundary scenario: a write spanning the
page boundary (`page_size - 1` to `page_size + 1`) leaves the byte at
`page_size - 2` unchanged. -/
theorem C2_witness :
    0 < cfg42.pageSize ∧ 3 + [9,9].length ≤ capacityBytes cfg42 ∧
      (∀ j, j < cfg42.maxKeys → (zeroed4 j).length = cfg42.pageSize) ∧
      2 < capacityBytes cfg42 ∧ (2 < 3 ∨ 3 + [9,9].length ≤ 2) ∧
      ∃ st' tr, LocalBlob.write cfg42 zeroed4 3 [9,9] = Except.ok (st', tr) ∧
        LocalBlob.blobByte cfg42 st' 2 = LocalBlob.blobByte cfg42 zeroed4 2 :=
  ⟨by decide, by decide, fun j _ => rfl, by decide, by decide,
    C2_write_frame cfg42 zeroed4 3 [9,9] 2 (by decide) (by decide)
      (fun j _ => rfl) (by decide) (by decide)⟩

/-- C3: out-of-range operations fail before any slot-store I/O —
`read(0, capacity_bytes + 1)` and `set_byte(capacity_bytes, v)` both
return `OutOfRange` and, returning an error with no operation trace,
issue no slot-store call. -/
theorem C3_out_of_range (cfg : BlobConfig) (st : Store) (v : Nat) :
    LocalBlob.read cfg st 0 (capacityBytes cfg + 1) =
      Except.error BlobError.OutOfRange ∧
    LocalBlob.set_byte cfg st (capacityBytes cfg) v =
      Except.error BlobError.OutOfRange := by
  constructor
  · simp only [LocalBlob.read]
    rw [if_neg (by omega)]
  · simp only [LocalBlob.set_byte]
    rw [if_neg (by omega)]

/-- C8: a reversed range is an error — for `bend < bstart`,
`read(bstart, bend)` fails with `OutOfRange` and returns no data. -/
theorem C8_reversed_range (cfg : BlobConfig) (st : Store) (bstart bend : Nat)
    (h : bend < bstart) :
    LocalBlob.read cfg st bstart bend = Except.error BlobError.OutOfRange := by
  simp only [LocalBlob.read]
  rw [if_neg (by omega)]

/-- Witness for C8: `read(5, 2)` on the spec §8 configuration errors. -/
theorem C8_witness :
    2 < 5 ∧ LocalBlob.read cfg42 zeroed4 5 2 = Except.error BlobError.OutOfRange :=
  ⟨by decide, C8_reversed_range cfg42 zeroed4 5 2 (by decide)⟩

/-- C6: single-byte set/get coherence — after `set_byte(idx, b)`,
`get_byte(idx)` returns `b` and every other logical byte of the blob is
unchanged. -/
theorem C6_set_get_byte (cfg : BlobConfig) (st : Store) (idx b : Nat)
    (hP : 0 < cfg.pageSize) (hidx : idx < capacityBytes cfg)
    (hlen : ∀ j, j < cfg.maxKeys → (st j).length = cfg.pageSize) :
    ∃ st' tr, LocalBlob.set_byte cfg st idx b = Except.ok (st', tr) ∧
      valueOf (LocalBlob.get_byte cfg st' idx) = some b ∧
      ∀ o, o < capacityBytes cfg → o ≠ idx →
        LocalBlob.blobByte cfg st' o = LocalBlob.blobByte cfg st o := by
  have hkm : idx / cfg.pageSize < cfg.maxKeys := by
    apply (Nat.div_lt_iff_lt_mul hP).mpr
    simp only [capacityBytes] at hidx
    rw [Nat.mul_comm] at hidx
    exact hidx
  have hoff : idx % cfg.pageSize < cfg.pageSize := Nat.mod_lt _ hP
  have hpg : (st (idx / cfg.pageSize)).length = cfg.pageSize := hlen _ hkm
  simp only [LocalBlob.set_byte, LocalBlob.key_idx, LocalBlob.offset_for_idx]
  rw [if_pos hidx]
  refine ⟨_, _, rfl, ?_, ?_⟩
  · simp only [LocalBlob.get_byte, LocalBlob.key_idx, LocalBlob.offset_for_idx]
    rw [if_pos hidx]
    simp only [valueOf]
    rw [updStore_self]
    simp only [avmGetByte, avmSetByte]
    rw [List.getD_eq_getElem _ _ (by rw [List.length_set, hpg]; exact hoff)]
    rw [List.getElem_set_self]
  · intro o ho ho2
    simp only [LocalBlob.blobByte, LocalBlob.key_idx, LocalBlob.offset_for_idx]
    rcases eq_or_ne (o / cfg.pageSize) (idx / cfg.pageSize) with hj | hj
    · rw [hj, updStore_self]
      have hro : o % cfg.pageSize ≠ idx % cfg.pageSize := by
        intro hr
        apply ho2
        have h1 : cfg.pageSize * (o / cfg.pageSize) + o % cfg.pageSize = o :=
          Nat.div_add_mod o cfg.pageSize
        have h2 : cfg.pageSize * (idx / cfg.pageSize) + idx % cfg.pageSize = idx :=
          Nat.div_add_mod idx cfg.pageSize
        rw [hj] at h1
        omega
      simp only [avmGetByte, avmSetByte]
      rw [List.getD_eq_getElem?_getD, List.getElem?_set_ne (Ne.symm hro),
        ← List.getD_eq_getElem?_getD]
    · rw [updStore_ne _ _ _ _ hj]

/-- Witness for C6: `set_byte(5, 77)` then `get_byte(5)` returns 77 and
byte 4 is untouched. -/
theorem C6_witness :
    0 < cfg42.pageSize ∧ 5 < capacityBytes cfg42 ∧
      (∀ j, j < cfg42.maxKeys → (zeroed4 j).length = cfg42.pageSize) ∧
      ∃ st' tr, LocalBlob.set_byte cfg42 zeroed4 5 77 = Except.ok (st', tr) ∧
        valueOf (LocalBlob.get_byte cfg42 st' 5) = some 77 ∧
        ∀ o, o < capacityBytes cfg42 → o ≠ 5 →
          LocalBlob.blobByte cfg42 st' o = LocalBlob.blobByte cfg42 zeroed4 o :=
  ⟨by decide, by decide, fun j _ => rfl,
    C6_set_get_byte cfg42 zeroed4 5 77 (by decide) (by decide) (fun j _ => rfl)⟩

/-! ### Characterization of zero -/

/-- Closed form of the unrolled `zero` sequence: pages `k .. k+n-1` become
the empty page, others are untouched, and one `put` of the empty page is
issued per key in ascending order. -/
theorem zeroGo_spec (cfg : BlobConfig) :
    ∀ n k st, (∀ j, (LocalBlob.zeroGo cfg st k n).1 j =
        if k ≤ j ∧ j < k + n then LocalBlob.EMPTY_PAGE cfg else st j) ∧
      (LocalBlob.zeroGo cfg st k n).2 =
        (List.range' k n).map (fun j => SlotOp.put j (LocalBlob.EMPTY_PAGE cfg)) := by
  intro n
  induction n with
  | zero =>
    intro k st
    refine ⟨fun j => ?_, rfl⟩
    rw [if_neg (by omega)]
    rfl
  | succ n ih =>
    intro k st
    obtain ⟨ih1, ih2⟩ := ih (k+1) (updStore st k (LocalBlob.EMPTY_PAGE cfg))
    constructor
    · intro j
      show (LocalBlob.zeroGo cfg (updStore st k (LocalBlob.EMPTY_PAGE cfg))
        (k+1) n).1 j = _
      rw [ih1 j]
      rcases eq_or_ne j k with hj | hj
      · rw [hj, if_neg (show ¬(k + 1 ≤ k ∧ k < k + 1 + n) by omega),
          if_pos (show k ≤ k ∧ k < k + (n+1) by omega), updStore_self]
      · by_cases h2 : k + 1 ≤ j ∧ j < k + 1 + n
        · rw [if_pos h2, if_pos (show k ≤ j ∧ j < k + (n+1) by omega)]
        · rw [if_neg h2, if_neg (show ¬(k ≤ j ∧ j < k + (n+1)) by omega),
            updStore_ne _ _ _ _ hj]
    · show SlotOp.put k (LocalBlob.EMPTY_PAGE cfg) ::
        (LocalBlob.zeroGo cfg (updStore st k (LocalBlob.EMPTY_PAGE cfg)) (k+1) n).2 = _
      rw [ih2, List.range'_succ, List.map_cons]

/-- C7: `zero` resets the whole blob — regardless of the prior slot-store
content, `zero()` issues exactly one `put` of the empty page per key of
the key space in ascending order, and a subsequent
`read(0, capacity_bytes)` returns all-zero bytes. -/
theorem C7_zero_resets (cfg : BlobConfig) (st : Store) (hP : 0 < cfg.pageSize) :
    (LocalBlob.zero cfg st).2 =
      (List.range' 0 cfg.maxKeys).map
        (fun k => SlotOp.put k (LocalBlob.EMPTY_PAGE cfg)) ∧
    valueOf (LocalBlob.read cfg (LocalBlob.zero cfg st).1 0 (capacityBytes cfg)) =
      some (List.replicate (capacityBytes cfg) 0) := by
  obtain ⟨hz1g, hz2g⟩ := zeroGo_spec cfg cfg.maxKeys 0 st
  have hz1 : ∀ j, (LocalBlob.zero cfg st).1 j =
      if 0 ≤ j ∧ j < 0 + cfg.maxKeys then LocalBlob.EMPTY_PAGE cfg else st j := hz1g
  have hz2 : (LocalBlob.zero cfg st).2 =
      (List.range' 0 cfg.maxKeys).map
        (fun j => SlotOp.put j (LocalBlob.EMPTY_PAGE cfg)) := hz2g
  have hcapd : capacityBytes cfg / cfg.pageSize = cfg.maxKeys := by
    simp only [capacityBytes]
    exact Nat.mul_div_cancel_left _ hP
  have hcapm : capacityBytes cfg % cfg.pageSize = 0 := by
    simp only [capacityBytes]
    exact Nat.mul_mod_right _ _
  refine ⟨hz2, ?_⟩
  have hlen : ∀ j, 0 / cfg.pageSize ≤ j → j ≤ capacityBytes cfg / cfg.pageSize →
      (if j = capacityBytes cfg / cfg.pageSize then
        capacityBytes cfg % cfg.pageSize else cfg.pageSize) ≤
        ((LocalBlob.zero cfg st).1 j).length := by
    intro j hj1 hj2
    rcases eq_or_ne j (capacityBytes cfg / cfg.pageSize) with hj | hj
    · rw [if_pos hj, hcapm]
      exact Nat.zero_le _
    · rw [if_neg hj]
      have hjm : j < cfg.maxKeys := by
        rw [hcapd] at hj2 hj
        omega
      rw [hz1 j, if_pos (show 0 ≤ j ∧ j < 0 + cfg.maxKeys by omega)]
      simp [LocalBlob.EMPTY_PAGE]
  rw [read_spec cfg (LocalBlob.zero cfg st).1 0 (capacityBytes cfg) hP
    (Nat.zero_le _) le_rfl hlen]
  simp only [valueOf]
  congr 1
  rw [Nat.sub_zero]
  have hmapc : (List.range' 0 (capacityBytes cfg)).map
      (LocalBlob.blobByte cfg (LocalBlob.zero cfg st).1) =
      (List.range' 0 (capacityBytes cfg)).map (fun _ => 0) := by
    apply List.map_congr_left
    intro o hmem
    obtain ⟨i, hi, rfl⟩ := List.mem_range'.mp hmem
    have ho : 0 + 1 * i < capacityBytes cfg := by omega
    have hom : (0 + 1 * i) / cfg.pageSize < cfg.maxKeys := by
      apply (Nat.div_lt_iff_lt_mul hP).mpr
      simp only [capacityBytes] at ho
      rw [Nat.mul_comm cfg.pageSize cfg.maxKeys] at ho
      exact ho
    simp only [LocalBlob.blobByte, LocalBlob.key_idx, LocalBlob.offset_for_idx,
      avmGetByte]
    rw [hz1, if_pos (And.intro (Nat.zero_le _)
      (show (0 + 1 * i) / cfg.pageSize < 0 + cfg.maxKeys by omega))]
    simp only [LocalBlob.EMPTY_PAGE]
    rw [List.getD_eq_getElem _ _
      (by rw [List.length_replicate]; exact Nat.mod_lt _ hP)]
    rw [List.getElem_replicate]
  rw [hmapc, List.map_const', List.length_range']

/-- Witness for C7: zeroing a two-page blob previously holding junk makes
`read(0, 8)` return eight zero bytes. -/
theorem C7_witness :
    0 < cfg42.pageSize ∧
      ((LocalBlob.zero cfg42 (fun _ => [5,6,7,8])).2 =
        (List.range' 0 cfg42.maxKeys).map
          (fun k => SlotOp.put k (LocalBlob.EMPTY_PAGE cfg42)) ∧
      valueOf (LocalBlob.read cfg42 (LocalBlob.zero cfg42 (fun _ => [5,6,7,8])).1 0
          (capacityBytes cfg42)) =
        some (List.replicate (capacityBytes cfg42) 0)) :=
  ⟨by decide, C7_zero_resets cfg42 (fun _ => [5,6,7,8]) (by decide)⟩

/-- The read loop issues exactly one `get` per page index from `k` to
`stopKey` inclusive, whatever the store contents. -/
theorem readPages_trace (cfg : BlobConfig) (st : Store) (sK tK sO tO : Nat) :
    ∀ n k, (LocalBlob.readPages cfg st sK tK sO tO k n).2 =
      (List.range' k n).map SlotOp.get := by
  intro n
  induction n with
  | zero => intro k; rfl
  | succ n ih =>
    intro k
    show SlotOp.get k :: (LocalBlob.readPages cfg st sK tK sO tO (k+1) n).2 = _
    rw [ih (k+1), List.range'_succ, List.map_cons]

/-- Counterexample to C4: with `page_size = 4`, `read(0, 4)` ends exactly
on a page boundary (`page_index(4) = 1`), yet the loop issues a `get` for
page 1 even though page 1 holds no byte of `[0, 4)`. -/
theorem C4_counterexample :
    traceOf (LocalBlob.read cfg42 zeroed4 0 4) =
      some [SlotOp.get 0, SlotOp.get 1] ∧
    LocalBlob.key_idx cfg42 4 = 1 :=
  ⟨rfl, rfl⟩

/-- C4 as amended: for every in-range `read(bstart, bend)` the engine
issues exactly one `get` per page index from `page_index(bstart)` to
`page_index(bend)` inclusive — including `page_index(bend)` when `bend`
falls on a page boundary, and one `get` even for an empty range — rather
than clamping to pages containing in-range bytes. -/
theorem C4_amended_read_gets (cfg : BlobConfig) (st : Store) (bstart bend : Nat)
    (hse : bstart ≤ bend) (hcap : bend ≤ capacityBytes cfg) :
    traceOf (LocalBlob.read cfg st bstart bend) =
      some ((List.range' (LocalBlob.key_idx cfg bstart)
        (LocalBlob.key_idx cfg bend + 1 - LocalBlob.key_idx cfg bstart)).map
          SlotOp.get) := by
  simp only [LocalBlob.read]
  rw [if_pos (And.intro hse hcap)]
  simp only [traceOf]
  rw [readPages_trace]

/-- Witness for the amended C4: `read(2, 2)` (empty range) issues exactly
one `get`, for page 0. -/
theorem C4_amended_witness :
    2 ≤ 2 ∧ 2 ≤ capacityBytes cfg42 ∧
      traceOf (LocalBlob.read cfg42 zeroed4 2 2) =
        some ((List.range' (LocalBlob.key_idx cfg42 2)
          (LocalBlob.key_idx cfg42 2 + 1 - LocalBlob.key_idx cfg42 2)).map
            SlotOp.get) :=
  ⟨by decide, by decide, C4_amended_read_gets cfg42 zeroed4 2 2 (by decide) (by decide)⟩

theorem avmExtract_zero (l : List Nat) (o : Nat) : avmExtract l o 0 = [] := by
  simp [avmExtract]

theorem wOf_zero_start (P j : Nat) : wOf 0 P j = j * P := by
  simp [wOf]

theorem mergePage_degenerate (pg buff : List Nat) (w P : Nat) :
    mergePage pg buff w 0 0 P = pg.take P := by
  simp [mergePage, avmSubstring, avmExtract]

theorem flatMap_singleton_map {α β : Type} (l : List α) (f : α → β) :
    l.flatMap (fun x => [f x]) = l.map f := by
  induction l with
  | nil => rfl
  | cons a l ih => rw [List.flatMap_cons, List.map_cons, ih]; rfl

/-- Counterexample to C5: `write(0, buff)` with `len(buff) =
capacity_bytes = 8` (`page_size = 4`, `max_keys = 2`) stores both data
pages through the fast path, but the loop still runs a final iteration
for the boundary page index 2 and issues two slot-store `get`s there —
the write does not issue zero `get`s. -/
theorem C5_counterexample :
    traceOf (LocalBlob.write cfg42 zeroed4 0 [1,2,3,4,5,6,7,8]) =
      some [SlotOp.put 0 [1,2,3,4], SlotOp.put 1 [5,6,7,8],
        SlotOp.get 2, SlotOp.get 2, SlotOp.put 2 [0,0,0,0]] ∧
    ([1,2,3,4,5,6,7,8] : List Nat).length = capacityBytes cfg42 :=
  ⟨rfl, rfl⟩

/-- C5 as amended: in `write(0, buff)` with `len(buff) = capacity_bytes`,
every one of the `max_keys` data pages is fully covered and is stored via
the write-only fast path — its new content is exactly the matching
contiguous slice of `buff` and no `get` is issued for it; but the loop
runs one further iteration for the out-of-key-space boundary page index
`max_keys`, which issues the only two `get`s of the call and rewrites
that page's prior content. -/
theorem C5_amended_full_cover (cfg : BlobConfig) (st : Store) (buff : List Nat)
    (hP : 0 < cfg.pageSize) (hlen : buff.length = capacityBytes cfg) :
    ∃ st' tr, LocalBlob.write cfg st 0 buff = Except.ok (st', tr) ∧
      tr = (List.range' 0 cfg.maxKeys).map
          (fun k => SlotOp.put k (avmExtract buff (k * cfg.pageSize) cfg.pageSize)) ++
        [SlotOp.get cfg.maxKeys, SlotOp.get cfg.maxKeys,
          SlotOp.put cfg.maxKeys ((st cfg.maxKeys).take cfg.pageSize)] := by
  obtain ⟨st', tr, hw, _, htr⟩ := write_spec cfg st 0 buff hP (by omega)
  refine ⟨st', tr, hw, ?_⟩
  rw [htr]
  have h0d : (0:Nat) / cfg.pageSize = 0 := Nat.zero_div _
  have h0m : (0:Nat) % cfg.pageSize = 0 := Nat.zero_mod _
  have htK : (0 + buff.length) / cfg.pageSize = cfg.maxKeys := by
    rw [Nat.zero_add, hlen]
    simp only [capacityBytes]
    exact Nat.mul_div_cancel_left _ hP
  have htO : (0 + buff.length) % cfg.pageSize = 0 := by
    rw [Nat.zero_add, hlen]
    simp only [capacityBytes]
    exact Nat.mul_mod_right _ _
  rw [h0d, h0m, htK, htO]
  have hn : cfg.maxKeys + 1 - 0 = cfg.maxKeys + 1 := by omega
  rw [hn, List.range'_concat, List.flatMap_append]
  have hfm : (List.range' 0 cfg.maxKeys).flatMap
      (pageTrace cfg buff st 0 cfg.maxKeys 0 0 0) =
      (List.range' 0 cfg.maxKeys).map
        (fun k => SlotOp.put k (avmExtract buff (k * cfg.pageSize) cfg.pageSize)) := by
    rw [← flatMap_singleton_map (List.range' 0 cfg.maxKeys)
      (fun k => SlotOp.put k (avmExtract buff (k * cfg.pageSize) cfg.pageSize))]
    apply List.flatMap_congr
    intro j hj
    obtain ⟨i, hi, rfl⟩ := List.mem_range'.mp hj
    have hjne : 0 + 1 * i ≠ cfg.maxKeys := by omega
    simp only [pageTrace, ite_self]
    rw [if_neg hjne]
    rw [if_neg (show ¬(cfg.pageSize ≠ cfg.pageSize ∨ (0:Nat) ≠ 0) by simp)]
    rw [mergePage_full, wOf_zero_start]
  have hback : (0 + 1 * cfg.maxKeys) = cfg.maxKeys := by omega
  rw [hback]
  have hlast : [cfg.maxKeys].flatMap (pageTrace cfg buff st 0 cfg.maxKeys 0 0 0) =
      [SlotOp.get cfg.maxKeys, SlotOp.get cfg.maxKeys,
        SlotOp.put cfg.maxKeys ((st cfg.maxKeys).take cfg.pageSize)] := by
    rw [List.flatMap_cons, List.flatMap_nil, List.append_nil]
    simp only [pageTrace, ite_self, if_true]
    rw [if_pos (Or.inl (show (0:Nat) ≠ cfg.pageSize by omega))]
    rw [mergePage_degenerate]
  rw [hfm, hlast]

/-- Witness for the amended C5 on the spec §8 configuration. -/
theorem C5_amended_witness :
    0 < cfg42.pageSize ∧ ([1,2,3,4,5,6,7,8] : List Nat).length = capacityBytes cfg42 ∧
      ∃ st' tr, LocalBlob.write cfg42 zeroed4 0 [1,2,3,4,5,6,7,8] =
          Except.ok (st', tr) ∧
        tr = (List.range' 0 cfg42.maxKeys).map
            (fun k => SlotOp.put k
              (avmExtract [1,2,3,4,5,6,7,8] (k * cfg42.pageSize) cfg42.pageSize)) ++
          [SlotOp.get cfg42.maxKeys, SlotOp.get cfg42.maxKeys,
            SlotOp.put cfg42.maxKeys ((zeroed4 cfg42.maxKeys).take cfg42.pageSize)] :=
  ⟨by decide, by decide,
    C5_amended_full_cover cfg42 zeroed4 [1,2,3,4,5,6,7,8] (by decide) (by decide)⟩

/-- Every `put` recorded in one write-loop page's operations stores the
merged page for that page. -/
theorem put_mem_pageTrace {cfg : BlobConfig} {buff : List Nat} {st : Store}
    {sK tK sO tO bstart j k : Nat} {v : List Nat}
    (h : SlotOp.put k v ∈ pageTrace cfg buff st sK tK sO tO bstart j) :
    v = mergePage (st j) buff (wOf bstart cfg.pageSize j)
      (if j = sK then sO else 0) (if j = tK then tO else cfg.pageSize)
      cfg.pageSize := by
  simp only [pageTrace] at h
  by_cases hC : (if j = tK then tO else cfg.pageSize) ≠ cfg.pageSize ∨
      (if j = sK then sO else 0) ≠ 0
  · rw [if_pos hC] at h
    simp only [List.mem_cons, List.not_mem_nil, or_false] at h
    rcases h with h | h | h
    · simp at h
    · simp at h
    · injection h with h1 h2
  · rw [if_neg hC] at h
    simp only [List.mem_cons, List.not_mem_nil, or_false] at h
    injection h with h1 h2

/-- C9: every slot-store `put` issued by the engine stores exactly
`page_size` bytes — for `zero` (the empty page), for `set_byte` (a
`SetByte` of a full page), and for `write` (the merged page, whether
partially or fully covered), assuming the spec §3 invariant that every
page the call touches holds `page_size` bytes. -/
theorem C9_puts_full_pages (cfg : BlobConfig) (st : Store) (hP : 0 < cfg.pageSize)
    (hinv : ∀ j, (st j).length = cfg.pageSize) :
    (∀ k v, SlotOp.put k v ∈ (LocalBlob.zero cfg st).2 →
      v.length = cfg.pageSize) ∧
    (∀ idx b out, LocalBlob.set_byte cfg st idx b = Except.ok out →
      ∀ k v, SlotOp.put k v ∈ out.2 → v.length = cfg.pageSize) ∧
    (∀ bstart buff out, LocalBlob.write cfg st bstart buff = Except.ok out →
      ∀ k v, SlotOp.put k v ∈ out.2 → v.length = cfg.pageSize) := by
  refine ⟨?_, ?_, ?_⟩
  · intro k v hmem
    obtain ⟨hz1, hz2⟩ := zeroGo_spec cfg cfg.maxKeys 0 st
    rw [show (LocalBlob.zero cfg st).2 = (List.range' 0 cfg.maxKeys).map
      (fun j => SlotOp.put j (LocalBlob.EMPTY_PAGE cfg)) from hz2] at hmem
    obtain ⟨j, hj, heq⟩ := List.mem_map.mp hmem
    injection heq with h1 h2
    rw [← h2]
    simp [LocalBlob.EMPTY_PAGE]
  · intro idx b out hok k v hmem
    simp only [LocalBlob.set_byte] at hok
    by_cases hidx : idx < capacityBytes cfg
    · rw [if_pos hidx] at hok
      injection hok with hok
      rw [← hok] at hmem
      simp only [List.mem_cons, List.not_mem_nil, or_false] at hmem
      rcases hmem with h | h
      · simp at h
      · injection h with h1 h2
        rw [h2]
        simp only [avmSetByte]
        rw [List.length_set]
        exact hinv _
    · rw [if_neg hidx] at hok
      exact Except.noConfusion hok
  · intro bstart buff out hok k v hmem
    by_cases hcap : bstart + buff.length ≤ capacityBytes cfg
    · obtain ⟨st', tr, hw, _, htr⟩ := write_spec cfg st bstart buff hP hcap
      rw [hw] at hok
      injection hok with hok
      rw [← hok] at hmem
      dsimp only at hmem
      rw [htr] at hmem
      obtain ⟨j, hjmem, hjp⟩ := List.mem_flatMap.mp hmem
      obtain ⟨i, hi, rfl⟩ := List.mem_range'.mp hjmem
      have hj1 : bstart / cfg.pageSize ≤ bstart / cfg.pageSize + 1 * i := by omega
      have hj2 : bstart / cfg.pageSize + 1 * i ≤
          (bstart + buff.length) / cfg.pageSize := by omega
      have hv := put_mem_pageTrace hjp
      obtain ⟨hse', heP', hbuf'⟩ :=
        write_offsets cfg.pageSize bstart buff.length _ hP hj1 hj2
      rw [hv]
      exact mergePage_length (hinv _) hse' heP' hbuf'
    · simp only [LocalBlob.write] at hok
      rw [if_neg hcap] at hok
      exact Except.noConfusion hok

/-- Witness for C9 on the spec §8 configuration. -/
theorem C9_witness :
    0 < cfg42.pageSize ∧ (∀ j, (zeroed4 j).length = cfg42.pageSize) ∧
      ((∀ k v, SlotOp.put k v ∈ (LocalBlob.zero cfg42 zeroed4).2 →
        v.length = cfg42.pageSize) ∧
      (∀ idx b out, LocalBlob.set_byte cfg42 zeroed4 idx b = Except.ok out →
        ∀ k v, SlotOp.put k v ∈ out.2 → v.length = cfg42.pageSize) ∧
      (∀ bstart buff out, LocalBlob.write cfg42 zeroed4 bstart buff = Except.ok out →
        ∀ k v, SlotOp.put k v ∈ out.2 → v.length = cfg42.pageSize)) :=
  ⟨by decide, fun j => rfl,
    C9_puts_full_pages cfg42 zeroed4 (by decide) (fun j => rfl)⟩

/-- C10: when the end of a write falls exactly on a page boundary
(including a zero-length write), the loop still processes the page at
`page_index(start + len(buff))`: that iteration takes the partial-merge
branch with intra-page bounds `0, 0` and zero data bytes, issues two
`get`s and one `put` that stores content byte-for-byte identical to the
page's prior content, so the blob's logical content is unchanged there. -/
theorem C10_boundary_iteration (cfg : BlobConfig) (st : Store) (bstart : Nat)
    (buff : List Nat) (hP : 0 < cfg.pageSize)
    (hmod : (bstart + buff.length) % cfg.pageSize = 0)
    (hcap : bstart + buff.length ≤ capacityBytes cfg)
    (hpg : (st ((bstart + buff.length) / cfg.pageSize)).length = cfg.pageSize) :
    ∃ st' tr0, LocalBlob.write cfg st bstart buff =
        Except.ok (st', tr0 ++
          [SlotOp.get ((bstart + buff.length) / cfg.pageSize),
           SlotOp.get ((bstart + buff.length) / cfg.pageSize),
           SlotOp.put ((bstart + buff.length) / cfg.pageSize)
             (st ((bstart + buff.length) / cfg.pageSize))]) ∧
      st' ((bstart + buff.length) / cfg.pageSize) =
        st ((bstart + buff.length) / cfg.pageSize) := by
  obtain ⟨st', tr, hw, hstore, htr⟩ := write_spec cfg st bstart buff hP hcap
  have hsKtK : bstart / cfg.pageSize ≤ (bstart + buff.length) / cfg.pageSize :=
    Nat.div_le_div_right (Nat.le_add_right _ _)
  have hS : (if (bstart + buff.length) / cfg.pageSize = bstart / cfg.pageSize
      then bstart % cfg.pageSize else 0) = 0 := by
    rcases eq_or_ne ((bstart + buff.length) / cfg.pageSize)
        (bstart / cfg.pageSize) with h | h
    · rw [if_pos h]
      have hbs : bstart / cfg.pageSize * cfg.pageSize + bstart % cfg.pageSize =
          bstart := by
        rw [Nat.mul_comm]; exact Nat.div_add_mod _ _
      have hbe : (bstart + buff.length) / cfg.pageSize * cfg.pageSize +
          (bstart + buff.length) % cfg.pageSize = bstart + buff.length := by
        rw [Nat.mul_comm]; exact Nat.div_add_mod _ _
      have h' : (bstart + buff.length) / cfg.pageSize * cfg.pageSize =
          bstart / cfg.pageSize * cfg.pageSize := by rw [h]
      omega
    · rw [if_neg h]
  have hE : (if (bstart + buff.length) / cfg.pageSize =
      (bstart + buff.length) / cfg.pageSize then
      (bstart + buff.length) % cfg.pageSize else cfg.pageSize) = 0 := by
    rw [if_pos rfl]
    exact hmod
  have hpt : pageTrace cfg buff st (bstart / cfg.pageSize)
      ((bstart + buff.length) / cfg.pageSize) (bstart % cfg.pageSize)
      ((bstart + buff.length) % cfg.pageSize) bstart
      ((bstart + buff.length) / cfg.pageSize) =
      [SlotOp.get ((bstart + buff.length) / cfg.pageSize),
       SlotOp.get ((bstart + buff.length) / cfg.pageSize),
       SlotOp.put ((bstart + buff.length) / cfg.pageSize)
         (st ((bstart + buff.length) / cfg.pageSize))] := by
    simp only [pageTrace, hS, if_true, hmod]
    rw [if_pos (Or.inl (show (0:Nat) ≠ cfg.pageSize by omega))]
    rw [mergePage_degenerate, List.take_of_length_le (le_of_eq hpg)]
  refine ⟨st', (List.range' (bstart / cfg.pageSize)
      ((bstart + buff.length) / cfg.pageSize - bstart / cfg.pageSize)).flatMap
        (pageTrace cfg buff st (bstart / cfg.pageSize)
          ((bstart + buff.length) / cfg.pageSize) (bstart % cfg.pageSize)
          ((bstart + buff.length) % cfg.pageSize) bstart), ?_, ?_⟩
  · rw [hw]
    have hn : (bstart + buff.length) / cfg.pageSize + 1 - bstart / cfg.pageSize =
        ((bstart + buff.length) / cfg.pageSize - bstart / cfg.pageSize) + 1 := by
      omega
    rw [htr, hn, List.range'_concat, List.flatMap_append]
    have hl : bstart / cfg.pageSize + 1 * ((bstart + buff.length) / cfg.pageSize -
        bstart / cfg.pageSize) = (bstart + buff.length) / cfg.pageSize := by omega
    rw [hl, List.flatMap_cons, List.flatMap_nil, List.append_nil, hpt]
  · rw [hstore _, if_pos (And.intro hsKtK le_rfl), hS, hE]
    rw [mergePage_degenerate, List.take_of_length_le (le_of_eq hpg)]

/-- Witness for C10: `write(2, [3,4])` ends at offset 4 = one page
boundary (`page_size = 4`); the loop's final iteration rewrites page 1
with its prior content. -/
theorem C10_witness :
    0 < cfg42.pageSize ∧ (2 + [3,4].length) % cfg42.pageSize = 0 ∧
      2 + [3,4].length ≤ capacityBytes cfg42 ∧
      (zeroed4 ((2 + [3,4].length) / cfg42.pageSize)).length = cfg42.pageSize ∧
      ∃ st' tr0, LocalBlob.write cfg42 zeroed4 2 [3,4] =
          Except.ok (st', tr0 ++
            [SlotOp.get ((2 + [3,4].length) / cfg42.pageSize),
             SlotOp.get ((2 + [3,4].length) / cfg42.pageSize),
             SlotOp.put ((2 + [3,4].length) / cfg42.pageSize)
               (zeroed4 ((2 + [3,4].length) / cfg42.pageSize))]) ∧
        st' ((2 + [3,4].length) / cfg42.pageSize) =
          zeroed4 ((2 + [3,4].length) / cfg42.pageSize) :=
  ⟨by decide, by decide, by decide, by decide,
    C10_boundary_iteration cfg42 zeroed4 2 [3,4] (by decide) (by decide)
      (by decide) (by decide)⟩
